import Mathlib

/-!
Verification development for the SimpleEQ response-curve and analysis
pipeline (`Source/PluginEditor.cpp`).  Real-valued quantities of the C++
code (stored as `float`/`double`) are embedded as real numbers; buffers
are embedded as lists; the JUCE helper functions used by the source
(`jmap`, `mapToLog10`, `mapFromLog10`, `Decibels::gainToDecibels`) are
embedded by their documented formulas.
-/

namespace SimpleEQ

/-- JUCE `jmap (value0, sourceMin, sourceMax, targetMin, targetMax)`:
affine remap of a value from the source range onto the target range. -/
noncomputable def jmap (v s0 s1 t0 t1 : ℝ) : ℝ :=
  t0 + (t1 - t0) * (v - s0) / (s1 - s0)

/-- JUCE `mapToLog10 (value0To1, logRangeMin, logRangeMax)`:
`pow (10, value0To1 * (log10 max - log10 min) + log10 min)`. -/
noncomputable def mapToLog10 (value0To1 logRangeMin logRangeMax : ℝ) : ℝ :=
  (10 : ℝ) ^ (value0To1 * (Real.logb 10 logRangeMax - Real.logb 10 logRangeMin)
      + Real.logb 10 logRangeMin)

/-- JUCE `mapFromLog10 (valueWithLogRange, logRangeMin, logRangeMax)`:
`(log10 value - log10 min) / (log10 max - log10 min)`. -/
noncomputable def mapFromLog10 (valueWithLogRange logRangeMin logRangeMax : ℝ) : ℝ :=
  (Real.logb 10 valueWithLogRange - Real.logb 10 logRangeMin)
    / (Real.logb 10 logRangeMax - Real.logb 10 logRangeMin)

/-- JUCE `Decibels::gainToDecibels (gain, minusInfinityDb)`:
`gain > 0 ? max (minusInfinityDb, log10 gain * 20) : minusInfinityDb`.
The call sites in `PluginEditor.cpp` use the default `minusInfinityDb = -100`. -/
noncomputable def gainToDecibels (gain minusInfinityDb : ℝ) : ℝ :=
  if 0 < gain then max minusInfinityDb (Real.logb 10 gain * 20) else minusInfinityDb

/-! ## The mono chain as seen by `ResponseCurveComponent::paint`

`paint` reads, for each stage of the mono chain, its bypass flag and the
magnitude response of its current coefficients
(`coefficients->getMagnitudeForFrequency (freq, sampleRate)`).  Those
per-stage magnitude responses are embedded abstractly as functions from
frequency to magnitude, which is all `paint` uses of them. -/

structure MonoChainView where
  peakBypassed : Bool
  peakMag : ℝ → ℝ
  lowCutBypassed : Fin 4 → Bool
  lowCutMag : Fin 4 → ℝ → ℝ
  highCutBypassed : Fin 4 → Bool
  highCutMag : Fin 4 → ℝ → ℝ

/-- The stages of the mono chain in the order `paint` visits them:
peak, the four low-cut sections, the four high-cut sections
(`PluginEditor.cpp` lines 280-299), each paired with its bypass flag. -/
def MonoChainView.stages (c : MonoChainView) : List (Bool × (ℝ → ℝ)) :=
  [(c.peakBypassed, c.peakMag),
   (c.lowCutBypassed 0, c.lowCutMag 0), (c.lowCutBypassed 1, c.lowCutMag 1),
   (c.lowCutBypassed 2, c.lowCutMag 2), (c.lowCutBypassed 3, c.lowCutMag 3),
   (c.highCutBypassed 0, c.highCutMag 0), (c.highCutBypassed 1, c.highCutMag 1),
   (c.highCutBypassed 2, c.highCutMag 2), (c.highCutBypassed 3, c.highCutMag 3)]

/-- The magnitude accumulation of `ResponseCurveComponent::paint`
(`PluginEditor.cpp` lines 277-299): start from `mag = 1.0` and, for each
stage in chain order, multiply by its magnitude at `freq` unless the
stage is bypassed. -/
noncomputable def chainMagnitudeAt (c : MonoChainView) (freq : ℝ) : ℝ :=
  let m0 : ℝ := 1
  let m1 := if c.peakBypassed then m0 else m0 * c.peakMag freq
  let m2 := if c.lowCutBypassed 0 then m1 else m1 * c.lowCutMag 0 freq
  let m3 := if c.lowCutBypassed 1 then m2 else m2 * c.lowCutMag 1 freq
  let m4 := if c.lowCutBypassed 2 then m3 else m3 * c.lowCutMag 2 freq
  let m5 := if c.lowCutBypassed 3 then m4 else m4 * c.lowCutMag 3 freq
  let m6 := if c.highCutBypassed 0 then m5 else m5 * c.highCutMag 0 freq
  let m7 := if c.highCutBypassed 1 then m6 else m6 * c.highCutMag 1 freq
  let m8 := if c.highCutBypassed 2 then m7 else m7 * c.highCutMag 2 freq
  let m9 := if c.highCutBypassed 3 then m8 else m8 * c.highCutMag 3 freq
  m9

/-- Specification-side reading of the same computation: the product of
the magnitudes of exactly the non-bypassed stages at `freq`. -/
noncomputable def activeMagnitudeProduct (c : MonoChainView) (freq : ℝ) : ℝ :=
  (((c.stages.filter fun s => !s.1).map fun s => s.2 freq)).prod

/-- The decibel value `paint` stores in `mags[i]`
(`PluginEditor.cpp` lines 275-301): evaluate the chain magnitude at
`mapToLog10 (i / width, 20, 20000)` and convert with
`Decibels::gainToDecibels`. -/
noncomputable def responseMags (c : MonoChainView) (width i : ℕ) : ℝ :=
  gainToDecibels (chainMagnitudeAt c (mapToLog10 ((i : ℝ) / (width : ℝ)) 20 20000)) (-100)

lemma foldl_active (freq : ℝ) :
    ∀ (l : List (Bool × (ℝ → ℝ))) (a : ℝ),
      l.foldl (fun m s => if s.1 then m else m * s.2 freq) a
        = a * ((l.filter fun s => !s.1).map fun s => s.2 freq).prod := by
  intro l
  induction l with
  | nil => intro a; simp
  | cons s l ih =>
      intro a
      rcases hb : s.1 with _ | _
      · simp only [List.foldl_cons, hb, if_neg Bool.false_ne_true,
          List.filter_cons, Bool.not_false, if_pos, List.map_cons, List.prod_cons]
        rw [ih]
        ring
      · simp only [List.foldl_cons, hb, if_pos, List.filter_cons, Bool.not_true]
        simpa using ih a

lemma chainMagnitudeAt_eq_foldl (c : MonoChainView) (freq : ℝ) :
    chainMagnitudeAt c freq
      = c.stages.foldl (fun m s => if s.1 then m else m * s.2 freq) 1 := rfl

/-- Claim C1: for every pixel column `i` in `0..width-1`, the response
curve evaluator computes the frequency `mapToLog10 (i / width, 20, 20000)`,
multiplies the magnitude responses of exactly the non-bypassed stages
(peak, the four low-cut sections, the four high-cut sections) at that
frequency starting from `1.0`, and converts the product to decibels; in
particular, when every stage is bypassed the value is `0` dB. -/
theorem paint_response_mags_spec (c : MonoChainView) (width i : ℕ) (h : i < width) :
    responseMags c width i
      = gainToDecibels
          (activeMagnitudeProduct c (mapToLog10 ((i : ℝ) / (width : ℝ)) 20 20000)) (-100)
    ∧ ((c.peakBypassed = true ∧ (∀ j, c.lowCutBypassed j = true)
          ∧ (∀ j, c.highCutBypassed j = true)) →
        responseMags c width i = 0) := by
  have hmag : ∀ f : ℝ, chainMagnitudeAt c f = activeMagnitudeProduct c f := by
    intro f
    rw [chainMagnitudeAt_eq_foldl, foldl_active, activeMagnitudeProduct, one_mul]
  constructor
  · unfold responseMags
    rw [hmag]
  · rintro ⟨hp, hlc, hhc⟩
    unfold responseMags
    rw [hmag]
    have hempty : activeMagnitudeProduct c (mapToLog10 ((i : ℝ) / (width : ℝ)) 20 20000) = 1 := by
      unfold activeMagnitudeProduct MonoChainView.stages
      simp [hp, hlc 0, hlc 1, hlc 2, hlc 3, hhc 0, hhc 1, hhc 2, hhc 3]
    rw [hempty]
    unfold gainToDecibels
    rw [if_pos one_pos, Real.logb_one]
    norm_num

/-- Witness for claim C1 at a concrete chain view, `width = 2`, `i = 1`. -/
theorem paint_response_mags_spec_witness :
    responseMags ⟨true, fun _ => 1, fun _ => true, fun _ _ => 1, fun _ => true, fun _ _ => 1⟩ 2 1
      = gainToDecibels
          (activeMagnitudeProduct
            ⟨true, fun _ => 1, fun _ => true, fun _ _ => 1, fun _ => true, fun _ _ => 1⟩
            (mapToLog10 ((1 : ℕ) / ((2 : ℕ) : ℝ)) 20 20000)) (-100)
    ∧ (((⟨true, fun _ => 1, fun _ => true, fun _ _ => 1, fun _ => true,
          fun _ _ => 1⟩ : MonoChainView).peakBypassed = true
        ∧ (∀ j, (⟨true, fun _ => 1, fun _ => true, fun _ _ => 1, fun _ => true,
            fun _ _ => 1⟩ : MonoChainView).lowCutBypassed j = true)
        ∧ (∀ j, (⟨true, fun _ => 1, fun _ => true, fun _ _ => 1, fun _ => true,
            fun _ _ => 1⟩ : MonoChainView).highCutBypassed j = true)) →
        responseMags ⟨true, fun _ => 1, fun _ => true, fun _ _ => 1, fun _ => true,
          fun _ _ => 1⟩ 2 1 = 0) :=
  paint_response_mags_spec _ 2 1 (by norm_num)

/-! ## Claim C3: the parameter-change dirty flag

`ResponseCurveComponent` keeps `juce::Atomic<bool> parametersChanged`.
`parameterValueChanged` (lines 184-187) does `parametersChanged.set (true)`
for any parameter index and value; `timerCallback` (lines 240-244) does
`if (parametersChanged.compareAndSetBool (false, true)) updateChain();`.
The two access sites are embedded as a step function on the flag; the
compare-and-set is one indivisible step, as the atomic primitive
guarantees. -/

/-- JUCE `Atomic<bool>::compareAndSetBool (newValue, valueToCompare)`:
if the current value equals `valueToCompare`, store `newValue` and
report success, else leave the value and report failure.  Returns
(value after the call, reported result). -/
def compareAndSetBool (current newValue valueToCompare : Bool) : Bool × Bool :=
  if current = valueToCompare then (newValue, true) else (current, false)

/-- Events touching the `parametersChanged` flag: a parameter-change
notification (with its index and new value, both ignored by the
handler), or a consumer timer tick. -/
inductive EqEvent where
  | paramChange (parameterIndex : ℤ) (newValue : ℚ)
  | timerTick
deriving DecidableEq

/-- One step of the flag state machine.  Returns the new flag value and
whether `updateChain` ran during the step. -/
def stepFlag (s : Bool) : EqEvent → Bool × Bool
  | .paramChange _ _ => (true, false)
  | .timerTick =>
      let r := compareAndSetBool s false true
      (r.1, r.2)

/-- Run a sequence of events, counting how many times `updateChain` ran. -/
def runEvents (s : Bool) : List EqEvent → Bool × ℕ
  | [] => (s, 0)
  | e :: es =>
      let r := stepFlag s e
      let rest := runEvents r.1 es
      (rest.1, (if r.2 then 1 else 0) + rest.2)

lemma runEvents_ticks_from_clean (trace : List EqEvent)
    (h : ∀ e ∈ trace, e = EqEvent.timerTick) : (runEvents false trace).2 = 0 := by
  induction trace with
  | nil => rfl
  | cons e es ih =>
      have he : e = EqEvent.timerTick := h e (List.mem_cons_self e es)
      subst he
      simp only [runEvents, stepFlag, compareAndSetBool]
      norm_num
      exact ih fun e hm => h e (List.mem_cons_of_mem _ hm)

/-- Claim C3: every parameter-change notification sets the flag to Dirty;
a timer tick clears the flag via the compare-and-set and runs
`updateChain` exactly when the compare-and-set observed Dirty; the
Dirty-to-Clean transition happens only on a timer tick; and a run of
consecutive ticks with no intervening parameter change executes
`updateChain` at most once. -/
theorem dirty_flag_state_machine (s : Bool) (parameterIndex : ℤ) (newValue : ℚ)
    (e : EqEvent) (trace : List EqEvent) :
    (stepFlag s (.paramChange parameterIndex newValue)).1 = true
    ∧ ((stepFlag s .timerTick).2 = true ↔ s = true)
    ∧ (stepFlag s .timerTick).1 = false
    ∧ (s = true → (stepFlag s e).1 = false → e = .timerTick)
    ∧ ((∀ x ∈ trace, x = EqEvent.timerTick) → (runEvents s trace).2 ≤ 1) := by
  refine ⟨rfl, ?_, ?_, ?_, ?_⟩
  · cases s <;> simp [stepFlag, compareAndSetBool]
  · cases s <;> simp [stepFlag, compareAndSetBool]
  · intro hs hclean
    cases e with
    | paramChange i v => rw [hs] at hclean; exact absurd hclean (by simp [stepFlag])
    | timerTick => rfl
  · intro htr
    cases trace with
    | nil => simp [runEvents]
    | cons x xs =>
        have hx : x = EqEvent.timerTick := htr x (List.mem_cons_self x xs)
        subst hx
        have hxs : ∀ e ∈ xs, e = EqEvent.timerTick :=
          fun e hm => htr e (List.mem_cons_of_mem _ hm)
        cases s <;>
          simp [runEvents, stepFlag, compareAndSetBool, runEvents_ticks_from_clean xs hxs]

/-- Witness for claim C3: dirty flag, one parameter change, a tick-only
trace of two ticks. -/
theorem dirty_flag_state_machine_witness :
    (stepFlag true (.paramChange 0 0)).1 = true
    ∧ ((stepFlag true .timerTick).2 = true ↔ true = true)
    ∧ (stepFlag true .timerTick).1 = false
    ∧ (true = true → (stepFlag true EqEvent.timerTick).1 = false → EqEvent.timerTick = .timerTick)
    ∧ ((∀ x ∈ [EqEvent.timerTick, EqEvent.timerTick], x = EqEvent.timerTick) →
        (runEvents true [EqEvent.timerTick, EqEvent.timerTick]).2 ≤ 1) :=
  dirty_flag_state_machine true 0 0 EqEvent.timerTick [EqEvent.timerTick, EqEvent.timerTick]

/-! ## Claim C4: the rolling FFT analysis window

`PathProducer::process` (lines 196-204) updates `monoBuffer` for every
popped block of `size` samples by two `FloatVectorOperations::copy`
calls: destination index `i < N - size` receives `monoBuffer[i + size]`,
and destination index `i >= N - size` receives `tempBuffer[i - (N - size)]`,
where `N = monoBuffer.getNumSamples()`. -/

/-- The shift-and-append window update of `PathProducer::process`,
expressed per destination index exactly as the two buffer copies do it. -/
def shiftAppendWindow {α : Type} [Inhabited α] (window block : List α) : List α :=
  (List.range window.length).map fun i =>
    if i < window.length - block.length then window.getD (i + block.length) default
    else block.getD (i - (window.length - block.length)) default

/-- Claim C4: consuming a block of `s` samples shifts the window left by
`s` positions and appends the block, so the window becomes the most
recent `W` samples of the extended stream and keeps its length `W`. -/
theorem rolling_window_shift_append {α : Type} [Inhabited α] (window block : List α)
    (h : block.length ≤ window.length) :
    shiftAppendWindow window block = window.drop block.length ++ block
    ∧ (shiftAppendWindow window block).length = window.length
    ∧ shiftAppendWindow window block = (window ++ block).drop block.length := by
  have hmain : shiftAppendWindow window block = window.drop block.length ++ block := by
    apply List.ext_getElem
    · simp only [shiftAppendWindow, List.length_map, List.length_range,
        List.length_append, List.length_drop]
      omega
    · intro i h1 h2
      simp only [shiftAppendWindow, List.length_map, List.length_range] at h1
      simp only [shiftAppendWindow, List.getElem_map, List.getElem_range]
      by_cases hi : i < window.length - block.length
      · rw [if_pos hi]
        rw [List.getElem_append_left (by simpa using hi)]
        rw [List.getElem_drop]
        rw [List.getD_eq_getElem _ _ (by omega)]
        congr 1
        omega
      · rw [if_neg hi]
        rw [List.getElem_append_right (by simpa using hi)]
        simp only [List.length_drop]
        rw [List.getD_eq_getElem _ _ (by omega)]
  refine ⟨hmain, ?_, ?_⟩
  · simp [shiftAppendWindow]
  · rw [hmain, List.drop_append_eq_append_drop]
    have : block.length - window.length = 0 := by omega
    rw [this, List.drop_zero]

/-- Witness for claim C4: window `[1, 2, 3, 4]`, block `[9, 8]`. -/
theorem rolling_window_shift_append_witness :
    shiftAppendWindow [1, 2, 3, 4] [9, 8] = [1, 2, 3, 4].drop ([9, 8] : List ℕ).length ++ [9, 8]
    ∧ (shiftAppendWindow [1, 2, 3, 4] [9, 8]).length = ([1, 2, 3, 4] : List ℕ).length
    ∧ shiftAppendWindow [1, 2, 3, 4] [9, 8]
        = (([1, 2, 3, 4] : List ℕ) ++ [9, 8]).drop ([9, 8] : List ℕ).length :=
  rolling_window_shift_append [1, 2, 3, 4] [9, 8] (by decide)

/-! ## Claim C10: the response-curve decibel-to-pixel map

`ResponseCurveComponent::paint` (lines 305-310) builds
`map = [outputMin, outputMax] (input) { return jmap (input, -24.0, 24.0,
outputMin, outputMax); }` with `outputMin = responseArea.getBottom()` and
`outputMax = responseArea.getY()`, and applies it with no clamping. -/

/-- The decibel-to-y lambda of `paint`: `jmap (v, -24, 24, bottom, top)`. -/
noncomputable def responseDbToY (bottom top v : ℝ) : ℝ :=
  jmap v (-24) 24 bottom top

/-- Claim C10: the decibel-to-y map of `paint` is the unclamped affine
map sending `-24` dB to the area bottom and `+24` dB to the area top,
and any decibel value outside `[-24, 24]` is mapped outside the vertical
bounds of the analysis area (linear extrapolation, no clamping). -/
theorem response_db_to_y_unclamped (bottom top v : ℝ) (h : top < bottom) :
    responseDbToY bottom top (-24) = bottom
    ∧ responseDbToY bottom top 24 = top
    ∧ (24 < v → responseDbToY bottom top v < top)
    ∧ (v < -24 → bottom < responseDbToY bottom top v) := by
  unfold responseDbToY jmap
  refine ⟨by ring, by ring, ?_, ?_⟩
  · intro hv
    have h48 : (0 : ℝ) < 48 := by norm_num
    nlinarith
  · intro hv
    nlinarith

/-- Witness for claim C10: bottom `10`, top `0`, value `30`. -/
theorem response_db_to_y_unclamped_witness :
    responseDbToY 10 0 (-24) = 10
    ∧ responseDbToY 10 0 24 = 0
    ∧ (24 < (30 : ℝ) → responseDbToY 10 0 30 < 0)
    ∧ ((30 : ℝ) < -24 → 10 < responseDbToY 10 0 30) :=
  response_db_to_y_unclamped 10 0 30 (by norm_num)

/-! ## Claim C9: `PathProducer::process` drains its queues

`PathProducer::process` (lines 191-229) runs three while loops: drain
the sample FIFO into `monoBuffer` (calling
`produceFFTDataForRendering` on the updated window each time), drain the
generator's FFT data blocks into generated paths, and drain the
generated paths into `leftChannelFFTPath` (each pop overwrites it, so
the last generated path wins).  The internals of the FFT data generator
and of `generatePath`, which live outside `src`, are abstracted as the
functions `produce` (frames enqueued by one `produceFFTDataForRendering`
call on a given window) and `generate` (path built from one FFT data
block); the loop structure itself is taken from the source. -/

structure PathProducerState (α β γ : Type) where
  fifoQ : List (List α)
  monoBuffer : List α
  fftQ : List β
  pathQ : List γ
  channelPath : γ

/-- Loop 1 of `process` (lines 192-207): while a complete buffer is
available, pop it, shift-append it into `monoBuffer`, and run the FFT
generator on the updated window, enqueueing whatever frames it makes. -/
def fifoLoopGo {α β γ : Type} [Inhabited α] (produce : List α → List β) :
    List (List α) → PathProducerState α β γ → PathProducerState α β γ
  | [], st => st
  | b :: bs, st =>
      let w := shiftAppendWindow st.monoBuffer b
      fifoLoopGo produce bs
        { st with fifoQ := bs, monoBuffer := w, fftQ := st.fftQ ++ produce w }

/-- Loop 2 of `process` (lines 213-224): while an FFT data block is
available, pop it and append the path generated from it. -/
def fftLoopGo {α β γ : Type} (generate : β → γ) :
    List β → PathProducerState α β γ → PathProducerState α β γ
  | [], st => st
  | f :: fs, st =>
      fftLoopGo generate fs { st with fftQ := fs, pathQ := st.pathQ ++ [generate f] }

/-- Loop 3 of `process` (lines 226-229): while a path is available, pop
it into the stored channel path. -/
def pathLoopGo {α β γ : Type} :
    List γ → PathProducerState α β γ → PathProducerState α β γ
  | [], st => st
  | p :: ps, st => pathLoopGo ps { st with pathQ := ps, channelPath := p }

/-- The whole of `PathProducer::process` over the queues' state. -/
def processState {α β γ : Type} [Inhabited α]
    (produce : List α → List β) (generate : β → γ)
    (st : PathProducerState α β γ) : PathProducerState α β γ :=
  let st1 := fifoLoopGo produce st.fifoQ st
  let st2 := fftLoopGo generate st1.fftQ st1
  pathLoopGo st2.pathQ st2

/-- The frames the FFT generator emits while loop 1 consumes the given
blocks starting from the given window. -/
def fifoFrames {α β : Type} [Inhabited α] (produce : List α → List β) :
    List α → List (List α) → List β
  | _, [] => []
  | w, b :: bs =>
      let w2 := shiftAppendWindow w b
      produce w2 ++ fifoFrames produce w2 bs

lemma fifoLoopGo_spec {α β γ : Type} [Inhabited α] (produce : List α → List β) :
    ∀ (bs : List (List α)) (st : PathProducerState α β γ), st.fifoQ = bs →
      (fifoLoopGo produce bs st).fifoQ = []
      ∧ (fifoLoopGo produce bs st).fftQ = st.fftQ ++ fifoFrames produce st.monoBuffer bs
      ∧ (fifoLoopGo produce bs st).pathQ = st.pathQ
      ∧ (fifoLoopGo produce bs st).channelPath = st.channelPath
  | [], st, hq => by
      refine ⟨hq, ?_, rfl, rfl⟩
      simp [fifoLoopGo, fifoFrames]
  | b :: bs, st, hq => by
      have ih := fifoLoopGo_spec produce bs
        (PathProducerState.mk bs (shiftAppendWindow st.monoBuffer b)
          (st.fftQ ++ produce (shiftAppendWindow st.monoBuffer b)) st.pathQ st.channelPath) rfl
      simpa [fifoLoopGo, fifoFrames, List.append_assoc] using ih

lemma fftLoopGo_spec {α β γ : Type} (generate : β → γ) :
    ∀ (fs : List β) (st : PathProducerState α β γ), st.fftQ = fs →
      (fftLoopGo generate fs st).fftQ = []
      ∧ (fftLoopGo generate fs st).pathQ = st.pathQ ++ fs.map generate
      ∧ (fftLoopGo generate fs st).fifoQ = st.fifoQ
      ∧ (fftLoopGo generate fs st).channelPath = st.channelPath
  | [], st, hq => by
      refine ⟨hq, ?_, rfl, rfl⟩
      simp [fftLoopGo]
  | f :: fs, st, hq => by
      have ih := fftLoopGo_spec generate fs
        { st with fftQ := fs, pathQ := st.pathQ ++ [generate f] } rfl
      simpa [fftLoopGo, List.append_assoc] using ih

lemma pathLoopGo_spec {α β γ : Type} :
    ∀ (ps : List γ) (st : PathProducerState α β γ), st.pathQ = ps →
      (pathLoopGo ps st).pathQ = []
      ∧ (pathLoopGo ps st).channelPath = ps.getLastD st.channelPath
      ∧ (pathLoopGo ps st).fifoQ = st.fifoQ
      ∧ (pathLoopGo ps st).fftQ = st.fftQ
  | [], st, hq => ⟨hq, rfl, rfl, rfl⟩
  | p :: ps, st, hq => by
      have hred : pathLoopGo (p :: ps) st
          = pathLoopGo ps { st with pathQ := ps, channelPath := p } := rfl
      rw [hred, List.getLastD_cons]
      exact pathLoopGo_spec ps { st with pathQ := ps, channelPath := p } rfl

/-- Claim C9: after `PathProducer::process` returns, the pending FFT data
blocks and generated paths have all been drained (their counts are zero),
and the stored channel path equals the most recently generated path, all
earlier pending paths having been discarded (if nothing was pending it is
unchanged). -/
theorem process_drains_queues {α β γ : Type} [Inhabited α]
    (produce : List α → List β) (generate : β → γ) (st : PathProducerState α β γ) :
    (processState produce generate st).fifoQ = []
    ∧ (processState produce generate st).fftQ = []
    ∧ (processState produce generate st).pathQ = []
    ∧ (processState produce generate st).channelPath
        = ((st.pathQ ++ (st.fftQ ++ fifoFrames produce st.monoBuffer st.fifoQ).map generate)).getLastD
            st.channelPath := by
  obtain ⟨h1a, h1b, h1c, h1d⟩ := fifoLoopGo_spec produce st.fifoQ st rfl
  set st1 := fifoLoopGo produce st.fifoQ st with hst1
  obtain ⟨h2a, h2b, h2c, h2d⟩ := fftLoopGo_spec generate st1.fftQ st1 rfl
  set st2 := fftLoopGo generate st1.fftQ st1 with hst2
  obtain ⟨h3a, h3b, h3c, h3d⟩ := pathLoopGo_spec st2.pathQ st2 rfl
  have hproc : processState produce generate st = pathLoopGo st2.pathQ st2 := rfl
  rw [hproc, h3c, h3d, h3a, h3b, h2c, h2a, h2d, h2b, h1a, h1c, h1d, h1b]
  exact ⟨rfl, rfl, rfl, rfl⟩

/-! ## Claims C2 and C6: the filter coefficient factory

The factory functions (`makePeakFilter`, `makeLowCutFilter`,
`makeHighCutFilter`) and the biquad magnitude evaluator
(`getMagnitudeForFrequency`) are declared in `PluginProcessor.h`, which
is not under `src`; they are modelled from the spec below. -/

/-- A normalized biquad section: coefficients `(b0, b1, b2, a1, a2)`
with `a0 = 1`. -/
structure BiquadCoeffs where
  b0 : ℝ
  b1 : ℝ
  b2 : ℝ
  a1 : ℝ
  a2 : ℝ

/-- The parameter snapshot of the spec's data model (section 3). -/
structure ChainSettings where
  peakFreqHz : ℝ
  peakGainDb : ℝ
  peakQ : ℝ
  lowCutFreqHz : ℝ
  highCutFreqHz : ℝ
  lowCutOrder : ℕ
  highCutOrder : ℕ

/-- Modelled from the spec: one second-order Butterworth highpass
section (RBJ biquad form) for section index `j` of an order-`order`
cascade, with the Butterworth pole-pair quality
`Qj = 1 / (2 sin (pi (2 j + 1) / (4 order)))`. -/
noncomputable def butterworthHighpassSection (freq fs : ℝ) (order j : ℕ) : BiquadCoeffs :=
  let omega := 2 * Real.pi * freq / fs
  let qj := 1 / (2 * Real.sin (Real.pi * (2 * (j : ℝ) + 1) / (4 * (order : ℝ))))
  let alpha := Real.sin omega / (2 * qj)
  let a0 := 1 + alpha
  ⟨((1 + Real.cos omega) / 2) / a0, (-(1 + Real.cos omega)) / a0,
   ((1 + Real.cos omega) / 2) / a0, (-2 * Real.cos omega) / a0, (1 - alpha) / a0⟩

/-- Modelled from the spec: one second-order Butterworth lowpass section
(RBJ biquad form) for section index `j` of an order-`order` cascade. -/
noncomputable def butterworthLowpassSection (freq fs : ℝ) (order j : ℕ) : BiquadCoeffs :=
  let omega := 2 * Real.pi * freq / fs
  let qj := 1 / (2 * Real.sin (Real.pi * (2 * (j : ℝ) + 1) / (4 * (order : ℝ))))
  let alpha := Real.sin omega / (2 * qj)
  let a0 := 1 + alpha
  ⟨((1 - Real.cos omega) / 2) / a0, (1 - Real.cos omega) / a0,
   ((1 - Real.cos omega) / 2) / a0, (-2 * Real.cos omega) / a0, (1 - alpha) / a0⟩

/-- Modelled from the spec: the low-cut band of the Coefficient Factory
is a cascade of Butterworth second-order highpass sections, one section
per unit of `lowCutOrder`. -/
noncomputable def makeLowCutFilter (s : ChainSettings) (fs : ℝ) : List BiquadCoeffs :=
  (List.range s.lowCutOrder).map fun j =>
    butterworthHighpassSection s.lowCutFreqHz fs s.lowCutOrder j

/-- Modelled from the spec: the high-cut band of the Coefficient Factory
is a cascade of Butterworth second-order lowpass sections, one section
per unit of `highCutOrder`. -/
noncomputable def makeHighCutFilter (s : ChainSettings) (fs : ℝ) : List BiquadCoeffs :=
  (List.range s.highCutOrder).map fun j =>
    butterworthLowpassSection s.highCutFreqHz fs s.highCutOrder j

/-- Modelled from the spec: the rolloff in dB/octave of a cut band of
order `k`.  The spec's section 2 offers "12/24/36/48 dB/octave, i.e.
1-4 cascaded sections", its section 4.1 says "order 1 = 12 dB/oct ...
order 4 = 48 dB/oct", and the slope slider labels in `PluginEditor.cpp`
(lines 482-483, 492-493, suffix "dB/oct") run from "12" to "48":
12 dB/octave per cascaded second-order section. -/
def cutRolloffDbPerOctave (k : ℕ) : ℕ := 12 * k

/-- The label set of `lowCutSlopeSlider` installed by the editor
constructor (`PluginEditor.cpp` lines 482-483); `highCutSlopeSlider`
receives the same labels (lines 492-493). -/
def lowCutSlopeSliderLabels : List (ℚ × String) := [(0, "12"), (1, "48")]

/-- Modelled from the spec: the peak band of the Coefficient Factory is
a single second-order parametric (RBJ-style) peaking EQ biquad built
from frequency, quality and gain in decibels, with amplitude
`A = 10 ^ (gainDb / 40)`, normalized so that `a0 = 1`. -/
noncomputable def makePeakFilter (freq quality gainDb fs : ℝ) : BiquadCoeffs :=
  let bigA := (10 : ℝ) ^ (gainDb / 40)
  let omega := 2 * Real.pi * freq / fs
  let alpha := Real.sin omega / (2 * quality)
  let a0 := 1 + alpha / bigA
  ⟨(1 + alpha * bigA) / a0, (-2 * Real.cos omega) / a0, (1 - alpha * bigA) / a0,
   (-2 * Real.cos omega) / a0, (1 - alpha / bigA) / a0⟩

/-- Modelled from the spec: the frequency-response magnitude of a biquad
at normalized angular frequency `theta = 2 pi f / sampleRate`, the ratio
of the moduli of numerator and denominator polynomials evaluated at
`z = exp (-i theta)` (as `getMagnitudeForFrequency` computes it). -/
noncomputable def biquadMagnitude (c : BiquadCoeffs) (theta : ℝ) : ℝ :=
  let z : ℂ := Complex.exp (-(theta : ℂ) * Complex.I)
  Complex.abs ((c.b0 : ℂ) + (c.b1 : ℂ) * z + (c.b2 : ℂ) * z ^ 2)
    / Complex.abs (1 + (c.a1 : ℂ) * z + (c.a2 : ℂ) * z ^ 2)

lemma exp_neg_theta_mul_I (theta : ℝ) :
    Complex.exp (-(theta : ℂ) * Complex.I)
      = ((Real.cos theta : ℝ) : ℂ) - ((Real.sin theta : ℝ) : ℂ) * Complex.I := by
  have h : (-(theta : ℂ)) * Complex.I = ((-theta : ℝ) : ℂ) * Complex.I := by push_cast; ring
  rw [h, Complex.exp_mul_I]
  rw [← Complex.ofReal_cos, ← Complex.ofReal_sin]
  push_cast
  simp [Real.cos_neg, Real.sin_neg]
  ring

lemma peak_den_ne_zero (alpha w theta : ℝ) (halpha : 0 < alpha) (hw : w ^ 2 < 1) :
    (1 : ℂ) + ((-2 * w / (1 + alpha) : ℝ) : ℂ) * Complex.exp (-(theta : ℂ) * Complex.I)
      + (((1 - alpha) / (1 + alpha) : ℝ) : ℂ)
          * Complex.exp (-(theta : ℂ) * Complex.I) ^ 2 ≠ 0 := by
  intro h0
  rw [exp_neg_theta_mul_I] at h0
  have h1a : (1 + alpha) ≠ 0 := by positivity
  have hpyth : Real.sin theta ^ 2 + Real.cos theta ^ 2 = 1 := Real.sin_sq_add_cos_sq theta
  set s := Real.sin theta
  set c := Real.cos theta
  rw [Complex.ext_iff] at h0
  obtain ⟨hre, him⟩ := h0
  simp only [pow_two, Complex.add_re, Complex.add_im, Complex.mul_re, Complex.mul_im,
    Complex.sub_re, Complex.sub_im, Complex.one_re, Complex.one_im, Complex.I_re,
    Complex.I_im, Complex.ofReal_re, Complex.ofReal_im, Complex.zero_re,
    Complex.zero_im] at hre him
  field_simp at hre him
  by_cases hs : s = 0
  · rw [hs] at hpyth hre him
    have hc2 : c ^ 2 = 1 := by nlinarith [hpyth]
    have hwc : w * c = 1 := by nlinarith [hre, hc2]
    have hsq : (w * c) ^ 2 = 1 := by rw [hwc]; norm_num
    have hw1 : w ^ 2 = 1 := by nlinarith [hsq, hc2, sq_nonneg w]
    linarith
  · have h4 : s * (w - (1 - alpha) * c) = 0 := by nlinarith [him]
    have h5 : w = (1 - alpha) * c := by
      rcases mul_eq_zero.mp h4 with h | h
      · exact absurd h hs
      · linarith
    have h6 : alpha * (s ^ 2 + c ^ 2) = alpha := by rw [hpyth]; ring
    rw [h5] at hre
    nlinarith [hre, hpyth, h6, halpha]

lemma biquadMagnitude_unity (p q theta : ℝ)
    (hden : (1 : ℂ) + ((p : ℝ) : ℂ) * Complex.exp (-(theta : ℂ) * Complex.I)
        + ((q : ℝ) : ℂ) * Complex.exp (-(theta : ℂ) * Complex.I) ^ 2 ≠ 0) :
    biquadMagnitude ⟨1, p, q, p, q⟩ theta = 1 := by
  unfold biquadMagnitude
  simp only [Complex.ofReal_one]
  exact div_self ((Complex.abs.ne_zero_iff).mpr hden)

/-- Claim C6: for every frequency, quality and sample rate (frequency
positive and below Nyquist, quality positive), the peak filter produced
by the Coefficient Factory with gain `0` dB has frequency-response
magnitude `1` (that is, `0` dB) at every evaluation frequency; a `0` dB
gain is handled by the same total arithmetic as any other gain, never an
error path. -/
theorem peak_zero_gain_unity (freq quality fs theta : ℝ)
    (hf : 0 < freq) (hq : 0 < quality) (hhalf : freq < fs / 2) :
    biquadMagnitude (makePeakFilter freq quality 0 fs) theta = 1
    ∧ gainToDecibels (biquadMagnitude (makePeakFilter freq quality 0 fs) theta) (-100) = 0 := by
  have hfs : 0 < fs := by linarith
  have homega0 : 0 < 2 * Real.pi * freq / fs := by positivity
  have homegapi : 2 * Real.pi * freq / fs < Real.pi := by
    rw [div_lt_iff₀ hfs]
    nlinarith [Real.pi_pos]
  have hsin : 0 < Real.sin (2 * Real.pi * freq / fs) :=
    Real.sin_pos_of_pos_of_lt_pi homega0 homegapi
  have halpha : 0 < Real.sin (2 * Real.pi * freq / fs) / (2 * quality) := by positivity
  have hw2 : Real.cos (2 * Real.pi * freq / fs) ^ 2 < 1 := by
    nlinarith [Real.sin_sq_add_cos_sq (2 * Real.pi * freq / fs), hsin]
  have hcoef : makePeakFilter freq quality 0 fs
      = ⟨1,
         (-2 * Real.cos (2 * Real.pi * freq / fs))
            / (1 + Real.sin (2 * Real.pi * freq / fs) / (2 * quality)),
         (1 - Real.sin (2 * Real.pi * freq / fs) / (2 * quality))
            / (1 + Real.sin (2 * Real.pi * freq / fs) / (2 * quality)),
         (-2 * Real.cos (2 * Real.pi * freq / fs))
            / (1 + Real.sin (2 * Real.pi * freq / fs) / (2 * quality)),
         (1 - Real.sin (2 * Real.pi * freq / fs) / (2 * quality))
            / (1 + Real.sin (2 * Real.pi * freq / fs) / (2 * quality))⟩ := by
    simp only [makePeakFilter]
    rw [zero_div, Real.rpow_zero, div_one, mul_one]
    congr 1
    exact div_self (by positivity)
  have hmag : biquadMagnitude (makePeakFilter freq quality 0 fs) theta = 1 := by
    rw [hcoef]
    apply biquadMagnitude_unity
    have hden := peak_den_ne_zero (Real.sin (2 * Real.pi * freq / fs) / (2 * quality))
      (Real.cos (2 * Real.pi * freq / fs)) theta halpha hw2
    convert hden using 4
  refine ⟨hmag, ?_⟩
  rw [hmag]
  unfold gainToDecibels
  rw [if_pos one_pos, Real.logb_one]
  norm_num

/-- Witness for claim C6: frequency `1`, quality `1`, gain `0` dB,
sample rate `4`, evaluation angle `0`. -/
theorem peak_zero_gain_unity_witness :
    biquadMagnitude (makePeakFilter 1 1 0 4) 0 = 1
    ∧ gainToDecibels (biquadMagnitude (makePeakFilter 1 1 0 4) 0) (-100) = 0 :=
  peak_zero_gain_unity 1 1 4 0 (by norm_num) (by norm_num) (by norm_num)

/-- Claim C2 counterexample: the claimed "6k dB/octave" rolloff formula
is false at order `k = 1`, where the rolloff is 12 dB/octave (as the
claim's own parenthetical "order 1 = 12 dB/oct" and the slope slider
labels state). -/
theorem cut_rolloff_not_six_per_order :
    cutRolloffDbPerOctave 1 = 12 ∧ ¬ cutRolloffDbPerOctave 1 = 6 * 1 := by
  decide

/-- Claim C2 (amended): for every `ChainSettings`, the Coefficient
Factory produces exactly `lowCutOrder` biquad sections for the low-cut
band and exactly `highCutOrder` biquad sections for the high-cut band,
where order `k` (k in {1,2,3,4}) yields `k` sections producing a
`12 k` dB/octave rolloff (order 1 = 12 dB/oct, order 4 = 48 dB/oct),
matching the slope slider labels "12" to "48" dB/oct in the editor. -/
theorem cut_filter_section_counts (s : ChainSettings) (fs : ℝ) (k : ℕ) :
    (makeLowCutFilter s fs).length = s.lowCutOrder
    ∧ (makeHighCutFilter s fs).length = s.highCutOrder
    ∧ cutRolloffDbPerOctave k = 12 * k
    ∧ lowCutSlopeSliderLabels.map Prod.snd
        = [toString (cutRolloffDbPerOctave 1), toString (cutRolloffDbPerOctave 4)] := by
  refine ⟨?_, ?_, rfl, ?_⟩
  · simp [makeLowCutFilter]
  · simp [makeHighCutFilter]
  · rfl

/-! ## Claims C7 and C8: render paths

The response curve path is built by `ResponseCurveComponent::paint`
(lines 304-315): `startNewSubPath (responseArea.getX(), map (mags.front()))`
followed by `lineTo (responseArea.getX() + i, map (mags[i]))` for
`i = 1 .. mags.size() - 1`.  The live-spectrum path generator
(`AnalyzerPathGenerator::generatePath`) is declared outside `src` and is
modelled from the spec (section 4.5). -/

/-- Clamp a value into `[lo, hi]`. -/
noncomputable def clampR (lo hi v : ℝ) : ℝ := max lo (min hi v)

/-- Modelled from the spec: the Spectrum Path Generator maps each
decibel value to a linearly-scaled y coordinate over the fixed
`[-24, 24]` dB range onto `[bottom, top]`, values outside the range
clamped, not an error. -/
noncomputable def analyzerY (bottom top db : ℝ) : ℝ :=
  jmap (clampR (-24) 24 db) (-24) 24 bottom top

/-- Modelled from the spec: the Spectrum Path Generator maps bin
`binNum` of bin width `binWidth` Hz to a logarithmically-scaled
x coordinate over `[20, 20000]` Hz across the pixel width. -/
noncomputable def analyzerX (width binWidth : ℝ) (binNum : ℕ) : ℝ :=
  clampR 0 1 (mapFromLog10 ((binNum : ℝ) * binWidth) 20 20000) * width

/-- The pixel column hit by bin `binNum`: the integer part of its
x coordinate. -/
noncomputable def analyzerColumn (width binWidth : ℝ) (binNum : ℕ) : ℤ :=
  ⌊analyzerX width binWidth binNum⌋

/-- Modelled from the spec (section 4.5): walk the bins in order
carrying the pixel column of the last written point; a bin whose column
equals it is skipped ("consecutive bins falling in the same output
pixel column are skipped -- only the first write per column", the
first-write-wins duplicate-suppression policy); any other bin emits one
point. -/
noncomputable def spectrumPathGo (width binWidth bottom top : ℝ) :
    List ℝ → ℕ → ℤ → List (ℝ × ℝ)
  | [], _, _ => []
  | d :: rest, b, lastCol =>
      if analyzerColumn width binWidth b = lastCol then
        spectrumPathGo width binWidth bottom top rest (b + 1) lastCol
      else
        (analyzerX width binWidth b, analyzerY bottom top d)
          :: spectrumPathGo width binWidth bottom top rest (b + 1)
              (analyzerColumn width binWidth b)

/-- Modelled from the spec: the Spectrum Path Generator.  The path
starts at the left edge (column 0) with bin 0's level, then adds at
most one point per pixel column for the remaining bins, skipping bins
that fall in the column already written. -/
noncomputable def generateSpectrumPath (frame : List ℝ) (width bottom top binWidth : ℝ) :
    List (ℝ × ℝ) :=
  match frame with
  | [] => []
  | d0 :: rest =>
      (0, analyzerY bottom top d0) :: spectrumPathGo width binWidth bottom top rest 1 0

/-- The response-curve path of `paint` (lines 304-315): the first point
at the area's x origin with the first magnitude, then one `lineTo` per
remaining column at the origin plus the column index. -/
noncomputable def responseCurvePath (x0 bottom top : ℝ) (mags : List ℝ) : List (ℝ × ℝ) :=
  match mags with
  | [] => []
  | m0 :: rest =>
      (x0, responseDbToY bottom top m0) ::
        ((List.range rest.length).map fun (j : ℕ) =>
          (x0 + ((j : ℝ) + 1), responseDbToY bottom top (rest.getD j 0)))

lemma responseCurvePath_length (x0 bottom top : ℝ) (mags : List ℝ) :
    (responseCurvePath x0 bottom top mags).length = mags.length := by
  cases mags <;> simp [responseCurvePath]

lemma responseCurvePath_pairwise (x0 bottom top : ℝ) (mags : List ℝ) :
    (responseCurvePath x0 bottom top mags).Pairwise fun p q => p.1 < q.1 := by
  cases mags with
  | nil => exact List.Pairwise.nil
  | cons m0 rest =>
      rw [responseCurvePath, List.pairwise_cons]
      constructor
      · intro q hq
        obtain ⟨j, hj, rfl⟩ := List.mem_map.mp hq
        have : (0 : ℝ) < (j : ℝ) + 1 := by positivity
        simpa using this
      · rw [List.pairwise_map]
        apply (List.pairwise_lt_range rest.length).imp
        intro j k hjk
        have : (j : ℝ) < (k : ℝ) := by exact_mod_cast hjk
        simpa using this

lemma analyzerX_mono (width binWidth : ℝ) (hw : 0 ≤ width) (hbw : 0 < binWidth)
    {b b2 : ℕ} (hb : 0 < b) (hbb : b ≤ b2) :
    analyzerX width binWidth b ≤ analyzerX width binWidth b2 := by
  unfold analyzerX
  apply mul_le_mul_of_nonneg_right _ hw
  apply max_le_max le_rfl
  apply min_le_min le_rfl
  unfold mapFromLog10
  have hD : (0 : ℝ) < Real.logb 10 20000 - Real.logb 10 20 := by
    have hlt : Real.logb 10 20 < Real.logb 10 20000 :=
      Real.logb_lt_logb (by norm_num) (by norm_num) (by norm_num)
    linarith
  have hb0 : (0 : ℝ) < (b : ℝ) * binWidth := by
    have hbc : (0 : ℝ) < (b : ℝ) := by exact_mod_cast hb
    positivity
  have hble : (b : ℝ) * binWidth ≤ (b2 : ℝ) * binWidth := by
    have hbc : (b : ℝ) ≤ (b2 : ℝ) := by exact_mod_cast hbb
    nlinarith
  have hlog : Real.logb 10 ((b : ℝ) * binWidth) ≤ Real.logb 10 ((b2 : ℝ) * binWidth) :=
    Real.logb_le_logb_of_le (by norm_num) hb0 hble
  exact (div_le_div_iff_of_pos_right hD).mpr (by linarith)

lemma analyzerX_nonneg (width binWidth : ℝ) (hw : 0 ≤ width) (b : ℕ) :
    0 ≤ analyzerX width binWidth b :=
  mul_nonneg (le_max_left 0 _) hw

lemma analyzerColumn_mono (width binWidth : ℝ) (hw : 0 ≤ width) (hbw : 0 < binWidth)
    {b b2 : ℕ} (hb : 0 < b) (hbb : b ≤ b2) :
    analyzerColumn width binWidth b ≤ analyzerColumn width binWidth b2 :=
  Int.floor_mono (analyzerX_mono width binWidth hw hbw hb hbb)

lemma analyzerColumn_nonneg (width binWidth : ℝ) (hw : 0 ≤ width) (b : ℕ) :
    0 ≤ analyzerColumn width binWidth b :=
  Int.floor_nonneg.mpr (analyzerX_nonneg width binWidth hw b)

lemma spectrumPathGo_spec (width binWidth bottom top : ℝ) (hw : 0 ≤ width)
    (hbw : 0 < binWidth) :
    ∀ (data : List ℝ) (b : ℕ) (lastCol : ℤ), 1 ≤ b →
      lastCol ≤ analyzerColumn width binWidth b →
      ((spectrumPathGo width binWidth bottom top data b lastCol).Pairwise
          (fun p q => ⌊p.1⌋ < ⌊q.1⌋)
        ∧ (spectrumPathGo width binWidth bottom top data b lastCol).Pairwise
            (fun p q => p.1 ≤ q.1))
      ∧ ∀ p ∈ spectrumPathGo width binWidth bottom top data b lastCol,
          lastCol < ⌊p.1⌋ ∧ analyzerX width binWidth b ≤ p.1
  | [], b, lastCol, _, _ => by
      simp [spectrumPathGo]
  | d :: rest, b, lastCol, hb, hlast => by
      have hmx : analyzerX width binWidth b ≤ analyzerX width binWidth (b + 1) :=
        analyzerX_mono width binWidth hw hbw (by omega) (by omega)
      have hmc : analyzerColumn width binWidth b ≤ analyzerColumn width binWidth (b + 1) :=
        analyzerColumn_mono width binWidth hw hbw (by omega) (by omega)
      by_cases hcol : analyzerColumn width binWidth b = lastCol
      · have ih := spectrumPathGo_spec width binWidth bottom top hw hbw rest (b + 1) lastCol
          (by omega) (by rw [← hcol]; exact hmc)
        rw [spectrumPathGo, if_pos hcol]
        refine ⟨ih.1, fun p hp => ⟨(ih.2 p hp).1, le_trans hmx (ih.2 p hp).2⟩⟩
      · have ih := spectrumPathGo_spec width binWidth bottom top hw hbw rest (b + 1)
          (analyzerColumn width binWidth b) (by omega) hmc
        rw [spectrumPathGo, if_neg hcol]
        have hhead : ⌊analyzerX width binWidth b⌋ = analyzerColumn width binWidth b := rfl
        refine ⟨⟨?_, ?_⟩, ?_⟩
        · rw [List.pairwise_cons]
          exact ⟨fun q hq => by rw [hhead]; exact (ih.2 q hq).1, ih.1.1⟩
        · rw [List.pairwise_cons]
          exact ⟨fun q hq => le_trans hmx (ih.2 q hq).2, ih.1.2⟩
        · intro p hp
          rcases List.mem_cons.mp hp with h0 | htail
          · subst h0
            refine ⟨?_, le_refl _⟩
            rw [hhead]
            exact lt_of_le_of_ne hlast (fun he => hcol he.symm)
          · exact ⟨lt_of_le_of_lt hlast (ih.2 p htail).1,
              le_trans hmx (ih.2 p htail).2⟩

lemma generateSpectrumPath_columns (frame : List ℝ) (width bottom top binWidth : ℝ)
    (hw : 0 ≤ width) (hbw : 0 < binWidth) :
    (generateSpectrumPath frame width bottom top binWidth).Pairwise
        (fun p q => ⌊p.1⌋ < ⌊q.1⌋)
    ∧ (generateSpectrumPath frame width bottom top binWidth).Pairwise
        (fun p q => p.1 ≤ q.1) := by
  cases frame with
  | nil => exact ⟨List.Pairwise.nil, List.Pairwise.nil⟩
  | cons d0 rest =>
      have hgo := spectrumPathGo_spec width binWidth bottom top hw hbw rest 1 0
        (le_refl 1) (analyzerColumn_nonneg width binWidth hw 1)
      rw [generateSpectrumPath]
      constructor
      · rw [List.pairwise_cons]
        refine ⟨fun q hq => ?_, hgo.1.1⟩
        have h0 : ⌊((0 : ℝ), analyzerY bottom top d0).1⌋ = 0 := by simp
        rw [h0]
        exact (hgo.2 q hq).1
      · rw [List.pairwise_cons]
        refine ⟨fun q hq => ?_, hgo.1.2⟩
        have hx1 : (0 : ℝ) ≤ analyzerX width binWidth 1 := analyzerX_nonneg width binWidth hw 1
        exact le_trans hx1 (hgo.2 q hq).2

lemma spectrumPathGo_y (width binWidth bottom top : ℝ) :
    ∀ (data : List ℝ) (b : ℕ) (lastCol : ℤ) (p : ℝ × ℝ),
      p ∈ spectrumPathGo width binWidth bottom top data b lastCol →
      ∃ d, p.2 = analyzerY bottom top d
  | [], _, _, _, hp => by simp [spectrumPathGo] at hp
  | d :: rest, b, lastCol, p, hp => by
      rw [spectrumPathGo] at hp
      split_ifs at hp with hcol
      · exact spectrumPathGo_y width binWidth bottom top rest (b + 1) lastCol p hp
      · rcases List.mem_cons.mp hp with h0 | htail
        · exact ⟨d, by rw [h0]⟩
        · exact spectrumPathGo_y width binWidth bottom top rest (b + 1) _ p htail

/-- Claim C7: every generated render path is an ordered sequence of 2D
points with one point per horizontal pixel column and x coordinates
monotonically non-decreasing: the spectrum path's points fall in
strictly increasing, hence pairwise distinct, pixel columns (at most
one point per column, by the duplicate-column suppression) with
non-decreasing x; and the response curve path built in `paint` (from
the per-column magnitudes of claim C1) has exactly one point per column
with strictly increasing x coordinates (the area x origin plus the
column index). -/
theorem render_paths_x_monotone (c : MonoChainView) (width : ℕ) (x0 bottom top : ℝ)
    (frame : List ℝ) (pixelWidth binWidth : ℝ)
    (hw : 0 ≤ pixelWidth) (hbw : 0 < binWidth) :
    (responseCurvePath x0 bottom top
        ((List.range width).map (responseMags c width))).length = width
    ∧ (responseCurvePath x0 bottom top
        ((List.range width).map (responseMags c width))).Pairwise (fun p q => p.1 < q.1)
    ∧ (generateSpectrumPath frame pixelWidth bottom top binWidth).Pairwise
        (fun p q => p.1 ≤ q.1)
    ∧ (generateSpectrumPath frame pixelWidth bottom top binWidth).Pairwise
        (fun p q => ⌊p.1⌋ < ⌊q.1⌋) := by
  obtain ⟨hcols, hx⟩ :=
    generateSpectrumPath_columns frame pixelWidth bottom top binWidth hw hbw
  refine ⟨?_, responseCurvePath_pairwise _ _ _ _, hx, hcols⟩
  rw [responseCurvePath_length]
  simp

/-- Witness for claim C7: a concrete chain view, two columns, a
three-bin frame. -/
theorem render_paths_x_monotone_witness :
    (responseCurvePath 5 10 0
        ((List.range 2).map
          (responseMags
            ⟨false, fun _ => 1, fun _ => false, fun _ _ => 1, fun _ => false,
             fun _ _ => 1⟩ 2))).length = 2
    ∧ (responseCurvePath 5 10 0
        ((List.range 2).map
          (responseMags
            ⟨false, fun _ => 1, fun _ => false, fun _ _ => 1, fun _ => false,
             fun _ _ => 1⟩ 2))).Pairwise (fun p q => p.1 < q.1)
    ∧ (generateSpectrumPath [0, -30, 50] 100 10 0 25).Pairwise (fun p q => p.1 ≤ q.1)
    ∧ (generateSpectrumPath [0, -30, 50] 100 10 0 25).Pairwise
        (fun p q => ⌊p.1⌋ < ⌊q.1⌋) :=
  render_paths_x_monotone _ 2 5 10 0 [0, -30, 50] 100 25 (by norm_num) (by norm_num)

lemma analyzerY_bounds (bottom top db : ℝ) (h : top ≤ bottom) :
    top ≤ analyzerY bottom top db ∧ analyzerY bottom top db ≤ bottom := by
  unfold analyzerY jmap clampR
  have h1 : (-24 : ℝ) ≤ max (-24 : ℝ) (min 24 db) := le_max_left _ _
  have h2 : max (-24 : ℝ) (min 24 db) ≤ 24 := max_le (by norm_num) (min_le_left _ _)
  constructor <;> nlinarith [h1, h2, h]

/-- Claim C8: the Spectrum Path Generator maps each decibel value
linearly over the fixed `[-24, 24]` dB range, clamping values outside
that range (not an error), so every y coordinate of the output path lies
within the configured pixel bounds even for out-of-range inputs. -/
theorem spectrum_path_y_within_bounds (frame : List ℝ) (pixelWidth bottom top binWidth : ℝ)
    (h : top ≤ bottom) (p : ℝ × ℝ)
    (hp : p ∈ generateSpectrumPath frame pixelWidth bottom top binWidth) :
    top ≤ p.2 ∧ p.2 ≤ bottom := by
  cases frame with
  | nil => simp [generateSpectrumPath] at hp
  | cons d0 rest =>
      rw [generateSpectrumPath] at hp
      rcases List.mem_cons.mp hp with h0 | hrest
      · subst h0
        exact analyzerY_bounds bottom top d0 h
      · obtain ⟨d, hd⟩ := spectrumPathGo_y pixelWidth binWidth bottom top rest 1 0 p hrest
        rw [hd]
        exact analyzerY_bounds bottom top d h

/-- Witness for claim C8: a one-bin frame whose level `100` dB is far
outside `[-24, 24]`, bounds bottom `10`, top `0`. -/
theorem spectrum_path_y_within_bounds_witness :
    (0 : ℝ) ≤ (((0 : ℝ), analyzerY 10 0 100)).2 ∧ (((0 : ℝ), analyzerY 10 0 100)).2 ≤ 10 :=
  spectrum_path_y_within_bounds [100] 1 10 0 25 (by norm_num) ((0 : ℝ), analyzerY 10 0 100)
    (by simp [generateSpectrumPath, spectrumPathGo])

/-! ## Claim C5: the lock-free sample FIFO

The RingFifo template lives in `PluginProcessor.h`, which is not under
`src`; it is modelled from the spec (fixed-capacity circular buffer,
atomic read and write indices, `capacity - 1` usable slots). -/

lemma mod_two_regions (a cap : ℕ) (hcap : 0 < cap) (h : a < 2 * cap) :
    a % cap = if a < cap then a else a - cap := by
  split_ifs with h1
  · exact Nat.mod_eq_of_lt h1
  · rw [Nat.mod_eq_sub_mod (le_of_not_lt h1)]
    exact Nat.mod_eq_of_lt (by omega)

lemma mod_window_ne (cap a b : ℕ) (hcap : 0 < cap) (hab : a < b) (hw : b - a < cap) :
    a % cap ≠ b % cap := by
  intro he
  have hmod : a ≡ b [MOD cap] := he
  have hdvd : cap ∣ b - a := (Nat.modEq_iff_dvd' (le_of_lt hab)).mp hmod
  have hle := Nat.le_of_dvd (by omega) hdvd
  omega

lemma getD_set_self {α : Type} (l : List α) (i : ℕ) (x d : α) (h : i < l.length) :
    (l.set i x).getD i d = x := by
  rw [List.getD_eq_getElem _ _ (by simpa using h)]
  simp

lemma getD_set_ne {α : Type} (l : List α) (i j : ℕ) (x d : α) (h : i ≠ j) :
    (l.set i x).getD j d = l.getD j d := by
  by_cases hj : j < l.length
  · rw [List.getD_eq_getElem _ _ (by simpa using hj), List.getD_eq_getElem _ _ hj]
    exact List.getElem_set_of_ne h x _
  · rw [List.getD_eq_default _ _ (by simpa using le_of_not_lt hj),
      List.getD_eq_default _ _ (le_of_not_lt hj)]

/-- Modelled from the spec (sections 3 and 4.3): the lock-free sample
FIFO is a fixed-capacity circular buffer with a read index and a write
index, `capacity - 1` usable slots disambiguating full from empty. -/
structure RingFifo (α : Type) where
  data : List α
  readIdx : ℕ
  writeIdx : ℕ

namespace RingFifo

variable {α : Type} [Inhabited α]

/-- The fixed capacity: the length of the backing storage. -/
def capacity (f : RingFifo α) : ℕ := f.data.length

/-- Modelled from the spec: `push` fails (returning `false` and leaving
the buffer untouched) when advancing the write index would collide with
the read index; otherwise it stores at the write index and advances it. -/
def push (f : RingFifo α) (x : α) : RingFifo α × Bool :=
  if (f.writeIdx + 1) % f.capacity = f.readIdx then (f, false)
  else (⟨f.data.set f.writeIdx x, f.readIdx, (f.writeIdx + 1) % f.capacity⟩, true)

/-- Modelled from the spec: `pop` returns `none` when read and write
indices coincide (empty); otherwise it reads at the read index and
advances it. -/
def pop (f : RingFifo α) : RingFifo α × Option α :=
  if f.readIdx = f.writeIdx then (f, none)
  else (⟨f.data, (f.readIdx + 1) % f.capacity, f.writeIdx⟩, some (f.data.getD f.readIdx default))

/-- The number of unread items. -/
def size (f : RingFifo α) : ℕ := (f.writeIdx + f.capacity - f.readIdx) % f.capacity

/-- The unread items in FIFO order. -/
def toList (f : RingFifo α) : List α :=
  (List.range f.size).map fun j => f.data.getD ((f.readIdx + j) % f.capacity) default

/-- Well-formedness: both indices stay inside the storage. -/
def Inv (f : RingFifo α) : Prop := f.readIdx < f.capacity ∧ f.writeIdx < f.capacity

lemma toList_length (f : RingFifo α) : f.toList.length = f.size := by
  simp [toList]

lemma size_eq (f : RingFifo α) (h : Inv f) :
    f.size = if f.readIdx ≤ f.writeIdx then f.writeIdx - f.readIdx
      else f.capacity + f.writeIdx - f.readIdx := by
  obtain ⟨hr, hw⟩ := h
  unfold size
  rw [mod_two_regions _ _ (by omega) (by omega)]
  split_ifs <;> omega

lemma size_lt (f : RingFifo α) (h : Inv f) : f.size < f.capacity := by
  obtain ⟨hr, hw⟩ := h
  rw [size_eq f ⟨hr, hw⟩]
  split_ifs <;> omega

lemma read_add_size (f : RingFifo α) (h : Inv f) :
    (f.readIdx + f.size) % f.capacity = f.writeIdx := by
  obtain ⟨hr, hw⟩ := h
  rw [size_eq f ⟨hr, hw⟩]
  split_ifs with h1
  · rw [mod_two_regions _ _ (by omega) (by omega)]
    split_ifs <;> omega
  · rw [mod_two_regions _ _ (by omega) (by omega)]
    split_ifs <;> omega

lemma full_iff (f : RingFifo α) (h : Inv f) :
    ((f.writeIdx + 1) % f.capacity = f.readIdx) ↔ f.size = f.capacity - 1 := by
  obtain ⟨hr, hw⟩ := h
  rw [size_eq f ⟨hr, hw⟩, mod_two_regions _ _ (by omega) (by omega)]
  split_ifs <;> omega

lemma empty_iff (f : RingFifo α) (h : Inv f) :
    f.readIdx = f.writeIdx ↔ f.size = 0 := by
  obtain ⟨hr, hw⟩ := h
  rw [size_eq f ⟨hr, hw⟩]
  split_ifs <;> omega

lemma pos_window_ne (f : RingFifo α) (h : Inv f) {j : ℕ} (hj : j < f.size) :
    (f.readIdx + j) % f.capacity ≠ f.writeIdx := by
  obtain ⟨hr, hw⟩ := h
  have hsz := size_lt f ⟨hr, hw⟩
  have hrs := read_add_size f ⟨hr, hw⟩
  rw [← hrs]
  exact mod_window_ne _ _ _ (by omega) (by omega) (by omega)

lemma push_spec (f : RingFifo α) (x : α) (h : Inv f) (hnf : f.size < f.capacity - 1) :
    (f.push x).2 = true ∧ Inv (f.push x).1 ∧ (f.push x).1.capacity = f.capacity
    ∧ (f.push x).1.toList = f.toList ++ [x] := by
  obtain ⟨hr, hw⟩ := h
  have hcap : 0 < f.capacity := by omega
  have hfull : ¬ ((f.writeIdx + 1) % f.capacity = f.readIdx) := by
    rw [full_iff f ⟨hr, hw⟩]
    omega
  have hpush : f.push x
      = (⟨f.data.set f.writeIdx x, f.readIdx, (f.writeIdx + 1) % f.capacity⟩, true) := by
    rw [push, if_neg hfull]
  set g : RingFifo α := ⟨f.data.set f.writeIdx x, f.readIdx, (f.writeIdx + 1) % f.capacity⟩
    with hg
  have hgcap : g.capacity = f.capacity := by simp [hg, capacity]
  have hginv : Inv g := by
    refine ⟨?_, ?_⟩
    · rw [hgcap]; exact hr
    · rw [hgcap]; exact Nat.mod_lt _ hcap
  have hgsize : g.size = f.size + 1 := by
    have hm : (f.writeIdx + 1) % f.capacity
        = if f.writeIdx + 1 < f.capacity then f.writeIdx + 1
          else f.writeIdx + 1 - f.capacity :=
      mod_two_regions _ _ (by omega) (by omega)
    rw [size_eq g hginv, hgcap]
    rw [size_eq f ⟨hr, hw⟩] at hnf ⊢
    simp only [hg]
    split_ifs at hm hnf ⊢ <;> omega
  have hwidx : (f.readIdx + f.size) % f.capacity = f.writeIdx := read_add_size f ⟨hr, hw⟩
  have htl : g.toList = f.toList ++ [x] := by
    unfold toList
    rw [hgsize, hgcap, List.range_succ, List.map_append]
    congr 1
    · apply List.map_congr_left
      intro j hj
      rw [List.mem_range] at hj
      simp only [hg]
      apply getD_set_ne
      intro hcontra
      exact pos_window_ne f ⟨hr, hw⟩ hj (by rw [← hcontra])
    · simp only [List.map_cons, List.map_nil, hg]
      rw [hwidx]
      rw [getD_set_self _ _ _ _ hw]
  rw [hpush]
  exact ⟨rfl, hginv, hgcap, htl⟩

lemma pop_spec (f : RingFifo α) (h : Inv f) (hne : f.size ≠ 0) :
    (f.pop).2 = some (f.data.getD f.readIdx default)
    ∧ Inv (f.pop).1 ∧ (f.pop).1.capacity = f.capacity
    ∧ f.toList = f.data.getD f.readIdx default :: (f.pop).1.toList := by
  obtain ⟨hr, hw⟩ := h
  have hcap : 0 < f.capacity := by omega
  have hrw : f.readIdx ≠ f.writeIdx := by
    rw [Ne, empty_iff f ⟨hr, hw⟩]
    exact hne
  have hpop : f.pop
      = (⟨f.data, (f.readIdx + 1) % f.capacity, f.writeIdx⟩,
         some (f.data.getD f.readIdx default)) := by
    rw [pop, if_neg hrw]
  set g : RingFifo α := ⟨f.data, (f.readIdx + 1) % f.capacity, f.writeIdx⟩ with hg
  have hgcap : g.capacity = f.capacity := rfl
  have hginv : Inv g := ⟨Nat.mod_lt _ hcap, hw⟩
  have hgsize : g.size = f.size - 1 := by
    have hm : (f.readIdx + 1) % f.capacity
        = if f.readIdx + 1 < f.capacity then f.readIdx + 1
          else f.readIdx + 1 - f.capacity :=
      mod_two_regions _ _ (by omega) (by omega)
    rw [size_eq g hginv, hgcap]
    rw [size_eq f ⟨hr, hw⟩] at hne ⊢
    simp only [hg]
    split_ifs at hm hne ⊢ <;> omega
  have htl : f.toList = f.data.getD f.readIdx default :: g.toList := by
    unfold toList
    have hsz : f.size = g.size + 1 := by omega
    rw [hsz, List.range_succ_eq_map, List.map_cons, List.map_map]
    congr 1
    · rw [Nat.add_zero, Nat.mod_eq_of_lt hr]
    · apply List.map_congr_left
      intro j hj
      simp only [Function.comp_apply, hg]
      show f.data.getD ((f.readIdx + j.succ) % f.capacity) default
          = f.data.getD (((f.readIdx + 1) % f.capacity + j) % f.capacity) default
      congr 1
      rw [Nat.mod_add_mod]
      congr 1
      omega
  rw [hpop]
  exact ⟨rfl, hginv, hgcap, htl⟩

/-- Push a sequence of items, reporting whether every push succeeded. -/
def pushAll (f : RingFifo α) (xs : List α) : RingFifo α × Bool :=
  match xs with
  | [] => (f, true)
  | x :: rest =>
      let r := f.push x
      let r2 := pushAll r.1 rest
      (r2.1, r.2 && r2.2)

lemma pushAll_spec : ∀ (xs : List α) (f : RingFifo α), Inv f →
    f.size + xs.length ≤ f.capacity - 1 →
    (pushAll f xs).2 = true ∧ Inv (pushAll f xs).1
    ∧ (pushAll f xs).1.capacity = f.capacity
    ∧ (pushAll f xs).1.toList = f.toList ++ xs
  | [], f, hinv, _ => ⟨rfl, hinv, rfl, by simp [pushAll]⟩
  | x :: rest, f, hinv, hsz => by
      simp only [List.length_cons] at hsz
      have hlt : f.size < f.capacity - 1 := by omega
      obtain ⟨hp2, hpinv, hpcap, hptl⟩ := push_spec f x hinv hlt
      have hpsize : (f.push x).1.size = f.size + 1 := by
        have h1 := toList_length (f.push x).1
        have h2 := toList_length f
        rw [hptl, List.length_append, List.length_singleton, h2] at h1
        omega
      obtain ⟨hq2, hqinv, hqcap, hqtl⟩ :=
        pushAll_spec rest (f.push x).1 hpinv (by rw [hpsize, hpcap]; omega)
      simp only [pushAll]
      refine ⟨by rw [hp2, hq2]; rfl, hqinv, by rw [hqcap, hpcap], ?_⟩
      rw [hqtl, hptl]
      simp

/-- Pop `n` items, collecting the values received. -/
def popAll (f : RingFifo α) : ℕ → RingFifo α × List α
  | 0 => (f, [])
  | n + 1 =>
      match f.pop with
      | (f2, none) => (f2, [])
      | (f2, some x) =>
          let r := popAll f2 n
          (r.1, x :: r.2)

lemma popAll_spec : ∀ (ys : List α) (f : RingFifo α), Inv f → f.toList = ys →
    (popAll f ys.length).2 = ys
  | [], f, _, _ => by simp [popAll]
  | y :: rest, f, hinv, htl => by
      have hne : f.size ≠ 0 := by
        have hlen := toList_length f
        rw [htl] at hlen
        simp at hlen
        omega
      obtain ⟨hp2, hpinv, hpcap, hptl⟩ := pop_spec f hinv hne
      rw [htl] at hptl
      rcases hfp : f.pop with ⟨f2, o⟩
      rw [hfp] at hp2 hpinv hptl
      simp only at hp2
      obtain ⟨hy, hrest⟩ := List.cons.inj hptl
      simp only [List.length_cons, popAll, hfp, hp2]
      have ih := popAll_spec rest f2 hpinv hrest.symm
      rw [ih, hy]

/-- Claim C5: pushing `capacity - 1` items into an empty RingFifo all
succeeds and popping them all returns them in FIFO order; a push into a
full RingFifo returns `false` and leaves the FIFO unchanged; a pop from
an empty RingFifo returns the empty optional. -/
theorem ring_fifo_contract (f g h : RingFifo α) (xs : List α) (y : α)
    (hf : Inv f) (hfe : f.toList = []) (hxs : xs.length = f.capacity - 1)
    (hg : Inv g) (hgfull : g.size = g.capacity - 1)
    (hh : Inv h) (hhe : h.toList = []) :
    ((pushAll f xs).2 = true ∧ (popAll (pushAll f xs).1 xs.length).2 = xs)
    ∧ g.push y = (g, false)
    ∧ h.pop = (h, none) := by
  have hsize0 : f.size = 0 := by
    have hlen := toList_length f
    rw [hfe] at hlen
    simpa using hlen.symm
  obtain ⟨hp2, hpinv, hpcap, hptl⟩ := pushAll_spec xs f hf (by omega)
  have hsizeh : h.size = 0 := by
    have hlen := toList_length h
    rw [hhe] at hlen
    simpa using hlen.symm
  refine ⟨⟨hp2, ?_⟩, ?_, ?_⟩
  · apply popAll_spec xs _ hpinv
    rw [hptl, hfe, List.nil_append]
  · rw [push, if_pos ((full_iff g hg).mpr hgfull)]
  · rw [pop, if_pos ((empty_iff h hh).mpr hsizeh)]


/-- Witness for claim C5: capacity 4 over naturals, items `[1, 2, 3]`,
a full FIFO receiving `7`, and an empty FIFO being popped. -/
theorem ring_fifo_contract_witness :
    ((RingFifo.pushAll (⟨[0, 0, 0, 0], 0, 0⟩ : RingFifo ℕ) [1, 2, 3]).2 = true
      ∧ (RingFifo.popAll (RingFifo.pushAll (⟨[0, 0, 0, 0], 0, 0⟩ : RingFifo ℕ) [1, 2, 3]).1
          ([1, 2, 3] : List ℕ).length).2 = [1, 2, 3])
    ∧ RingFifo.push (⟨[0, 0, 0, 0], 0, 3⟩ : RingFifo ℕ) 7 = (⟨[0, 0, 0, 0], 0, 3⟩, false)
    ∧ RingFifo.pop (⟨[0, 0, 0, 0], 2, 2⟩ : RingFifo ℕ) = (⟨[0, 0, 0, 0], 2, 2⟩, none) :=
  RingFifo.ring_fifo_contract _ _ _ _ 7 ⟨by decide, by decide⟩ (by decide) (by decide)
    ⟨by decide, by decide⟩ (by decide) ⟨by decide, by decide⟩ (by decide)


end RingFifo

end SimpleEQ
